import Mathlib

/-!
Verification of the zep editor core (editor.h and the buffer/mode/window
engine specified in spec.md) through a shallow embedding in Lean 4.

Pointers to components are modelled as natural numbers; the subscriber
set m_notifyClients (a std::set of component pointers) is modelled as a
strictly sorted list of keys, since a std::set stores its elements in
ascending key order and iterates in that order.  The register store
(a std::map from string keys to Register values) is modelled as a
strictly key-sorted association list.  Buffer, undo history, window and
mode definitions whose bodies are not part of the repository's staged
sources are modelled from the specification, as marked in their
doc comments.
-/

/-! ## Notification bus: m_notifyClients is a std::set of component pointers -/

/-- Component pointers are modelled by their addresses. -/
abbrev ComponentPtr := Nat

/-- Ordered insertion without duplicates: the effect of std::set::insert on
the sorted element sequence of a std::set of pointers. -/
def insertSorted (x : Nat) : List Nat → List Nat
  | [] => [x]
  | y :: ys =>
    if x < y then x :: y :: ys
    else if x = y then y :: ys
    else y :: insertSorted x ys

/-- ZepEditor::RegisterCallback does m_notifyClients.insert(pClient). -/
def RegisterCallback (s : List ComponentPtr) (p : ComponentPtr) : List ComponentPtr :=
  insertSorted p s

/-- ZepEditor::UnRegisterCallback does m_notifyClients.erase(pClient). -/
def UnRegisterCallback (s : List ComponentPtr) (p : ComponentPtr) : List ComponentPtr :=
  s.filter (fun q => decide (q ≠ p))

/-- The order in which ZepEditor::Broadcast visits subscribers: iteration
order of the std::set, i.e. the sorted element sequence itself. -/
def broadcastOrder (s : List ComponentPtr) : List ComponentPtr := s

/-- The subscriber set that results from a sequence of RegisterCallback
calls on a fresh editor (registration order is the list order). -/
def subscribersOf (regs : List ComponentPtr) : List ComponentPtr :=
  regs.foldl RegisterCallback []

theorem mem_insertSorted (a x : Nat) (l : List Nat) :
    a ∈ insertSorted x l ↔ a = x ∨ a ∈ l := by
  induction l with
  | nil => simp [insertSorted]
  | cons y ys ih =>
    by_cases h1 : x < y
    · simp [insertSorted, h1]
    · by_cases h2 : x = y
      · subst h2
        simp [insertSorted, h1]
      · simp [insertSorted, h1, h2, ih]
        tauto

theorem insertSorted_pairwise (x : Nat) (l : List Nat)
    (h : l.Pairwise (· < ·)) : (insertSorted x l).Pairwise (· < ·) := by
  induction l with
  | nil => simp [insertSorted]
  | cons y ys ih =>
    rw [List.pairwise_cons] at h
    obtain ⟨hy, hys⟩ := h
    by_cases h1 : x < y
    · simp only [insertSorted, if_pos h1]
      rw [List.pairwise_cons]
      constructor
      · intro a ha
        rcases List.mem_cons.mp ha with h3 | h3
        · subst h3; exact h1
        · exact lt_trans h1 (hy a h3)
      · rw [List.pairwise_cons]; exact ⟨hy, hys⟩
    · by_cases h2 : x = y
      · subst h2
        have he : insertSorted x (x :: ys) = x :: ys := by
          simp [insertSorted, h1]
        rw [he, List.pairwise_cons]
        exact ⟨hy, hys⟩
      · have hyx : y < x := lt_of_le_of_ne (Nat.le_of_not_lt h1) (fun e => h2 e.symm)
        simp only [insertSorted, if_neg h1, if_neg h2]
        rw [List.pairwise_cons]
        constructor
        · intro a ha
          rcases (mem_insertSorted a x ys).mp ha with h3 | h3
          · subst h3; exact hyx
          · exact hy a h3
        · exact ih hys

theorem insertSorted_idem (x : Nat) (l : List Nat) :
    insertSorted x (insertSorted x l) = insertSorted x l := by
  induction l with
  | nil => simp [insertSorted]
  | cons y ys ih =>
    by_cases h1 : x < y
    · simp [insertSorted, h1, lt_irrefl]
    · by_cases h2 : x = y
      · subst h2
        simp [insertSorted, h1]
      · simp [insertSorted, h1, h2, ih]

theorem subscribersOf_appendStep (regs : List Nat) :
    ∀ s : List Nat, s.Pairwise (· < ·) →
      (regs.foldl RegisterCallback s).Pairwise (· < ·) ∧
      (∀ p, p ∈ regs.foldl RegisterCallback s ↔ p ∈ s ∨ p ∈ regs) := by
  induction regs with
  | nil => intro s hs; simpa using hs
  | cons r rs ih =>
    intro s hs
    have hstep : (RegisterCallback s r).Pairwise (· < ·) := insertSorted_pairwise r s hs
    obtain ⟨hp, hm⟩ := ih (RegisterCallback s r) hstep
    refine ⟨hp, fun p => ?_⟩
    rw [List.foldl_cons] at *
    rw [hm p]
    unfold RegisterCallback
    rw [mem_insertSorted]
    simp
    tauto

/-! ## Register: a text payload plus a line-wise flag (editor.h lines 144-169) -/

/-- The Register struct of editor.h: a text payload and a lineWise flag. -/
structure Register where
  text : String
  lineWise : Bool
deriving DecidableEq

/-- The default constructor Register(): text "" and lineWise false. -/
def Register.mkDefault : Register := ⟨ "", false⟩

/-- The constructor Register(const char* ch, bool lw). -/
def Register.ofCString (s : String) (lw : Bool) : Register := ⟨s, lw⟩

/-- Register(const char* ch) with the default argument lw = false applied. -/
def Register.ofCStringDefault (s : String) : Register := Register.ofCString s false

/-- The constructor Register(utf8* ch, bool lw); utf8 text is carried as
a string, as the C++ constructor casts it to const char*. -/
def Register.ofUtf8 (s : String) (lw : Bool) : Register := ⟨s, lw⟩

/-- Register(utf8* ch) with the default argument lw = false applied. -/
def Register.ofUtf8Default (s : String) : Register := Register.ofUtf8 s false

/-- The constructor Register(const std::string& str, bool lw). -/
def Register.ofString (s : String) (lw : Bool) : Register := ⟨s, lw⟩

/-- Register(const std::string& str) with the default argument lw = false. -/
def Register.ofStringDefault (s : String) : Register := Register.ofString s false

/-! ## The register store: tRegisters is a std::map from string keys to Register.
A std::map keeps at most one entry per key in ascending key order; it is
modelled as a strictly key-sorted association list.  The bodies of
ZepEditor::SetRegister and ZepEditor::GetRegister are not among the staged
sources; per the spec the store is keyed uniquely, last-write-wins. -/

/-- The register store's entry sequence. -/
abbrev tRegisters := List (String × Register)

/-- The effect of m_registers[key] = val on the sorted entry sequence of a
std::map: replace the entry with an equal key, or insert in key order. -/
def mapInsert (k : String) (v : Register) : tRegisters → tRegisters
  | [] => [(k, v)]
  | (k2, v2) :: rest =>
    if k < k2 then (k, v) :: (k2, v2) :: rest
    else if k = k2 then (k, v) :: rest
    else (k2, v2) :: mapInsert k v rest

/-- std::map::find by key on the entry sequence. -/
def mapFind (k : String) : tRegisters → Option Register
  | [] => none
  | (k2, v) :: rest => if k = k2 then some v else mapFind k rest

/-- Modelled from the spec: ZepEditor::SetRegister stores val under reg,
last-write-wins (its body is not among the staged sources; the container
is the std::map tRegisters of editor.h). -/
def SetRegister (m : tRegisters) (reg : String) (val : Register) : tRegisters :=
  mapInsert reg val m

/-- Modelled from the spec: ZepEditor::GetRegister returns the register
stored under reg; absent keys yield a default-constructed Register, as
std::map::operator[] default-constructs missing entries. -/
def GetRegister (m : tRegisters) (reg : String) : Register :=
  (mapFind reg m).getD Register.mkDefault

/-- How many entries of the store carry the key k. -/
def countKey (m : tRegisters) (k : String) : Nat :=
  (m.filter (fun p => decide (p.1 = k))).length

/-- The std::map invariant: entry keys strictly ascend. -/
def regKeysSorted (m : tRegisters) : Prop :=
  m.Pairwise (fun a b => a.1 < b.1)

theorem mapFind_mapInsert (k : String) (v : Register) (m : tRegisters) :
    mapFind k (mapInsert k v m) = some v := by
  induction m with
  | nil => simp [mapInsert, mapFind]
  | cons p rest ih =>
    obtain ⟨k2, v2⟩ := p
    by_cases h1 : k < k2
    · simp [mapInsert, mapFind, h1]
    · by_cases h2 : k = k2
      · simp [mapInsert, mapFind, h1, h2]
      · simp [mapInsert, mapFind, h1, h2, ih]

theorem mem_mapInsert (p : String × Register) (k : String) (v : Register)
    (m : tRegisters) (h : p ∈ mapInsert k v m) : p.1 = k ∨ p ∈ m := by
  induction m with
  | nil =>
    simp [mapInsert] at h
    subst h
    exact Or.inl rfl
  | cons q rest ih =>
    obtain ⟨k2, v2⟩ := q
    by_cases h1 : k < k2
    · simp only [mapInsert, if_pos h1] at h
      rcases List.mem_cons.mp h with h3 | h3
      · subst h3; exact Or.inl rfl
      · exact Or.inr h3
    · by_cases h2 : k = k2
      · simp only [mapInsert, if_neg h1, if_pos h2] at h
        rcases List.mem_cons.mp h with h3 | h3
        · subst h3; exact Or.inl rfl
        · exact Or.inr (List.mem_cons_of_mem _ h3)
      · simp only [mapInsert, if_neg h1, if_neg h2] at h
        rcases List.mem_cons.mp h with h3 | h3
        · exact Or.inr (h3 ▸ List.mem_cons_self _ _)
        · rcases ih h3 with h4 | h4
          · exact Or.inl h4
          · exact Or.inr (List.mem_cons_of_mem _ h4)

theorem mapInsert_sorted (k : String) (v : Register) (m : tRegisters)
    (h : regKeysSorted m) : regKeysSorted (mapInsert k v m) := by
  induction m with
  | nil =>
    simp [mapInsert, regKeysSorted]
  | cons q rest ih =>
    obtain ⟨k2, v2⟩ := q
    unfold regKeysSorted at h
    rw [List.pairwise_cons] at h
    obtain ⟨hq, hrest⟩ := h
    by_cases h1 : k < k2
    · unfold regKeysSorted
      simp only [mapInsert, if_pos h1]
      rw [List.pairwise_cons]
      refine ⟨?_, ?_⟩
      · intro p hp
        rcases List.mem_cons.mp hp with h3 | h3
        · subst h3; exact h1
        · exact lt_trans h1 (hq p h3)
      · rw [List.pairwise_cons]; exact ⟨hq, hrest⟩
    · by_cases h2 : k = k2
      · unfold regKeysSorted
        simp only [mapInsert, if_neg h1, if_pos h2]
        rw [List.pairwise_cons]
        exact ⟨fun p hp => h2 ▸ hq p hp, hrest⟩
      · have hk2 : k2 < k := lt_of_le_of_ne (le_of_not_lt h1) (fun e => h2 e.symm)
        unfold regKeysSorted
        simp only [mapInsert, if_neg h1, if_neg h2]
        rw [List.pairwise_cons]
        refine ⟨?_, ih hrest⟩
        intro p hp
        rcases mem_mapInsert p k v rest hp with h3 | h3
        · exact h3 ▸ hk2
        · exact hq p h3

theorem countKey_eq_zero (m : tRegisters) (k : String)
    (h : ∀ p ∈ m, p.1 ≠ k) : countKey m k = 0 := by
  unfold countKey
  rw [List.length_eq_zero]
  rw [List.filter_eq_nil_iff]
  intro p hp
  simpa using h p hp

theorem countKey_mapInsert (k : String) (v : Register) (m : tRegisters)
    (h : regKeysSorted m) : countKey (mapInsert k v m) k = 1 := by
  induction m with
  | nil => simp [mapInsert, countKey]
  | cons q rest ih =>
    obtain ⟨k2, v2⟩ := q
    unfold regKeysSorted at h
    rw [List.pairwise_cons] at h
    obtain ⟨hq, hrest⟩ := h
    by_cases h1 : k < k2
    · simp only [mapInsert, if_pos h1]
      unfold countKey
      rw [List.filter_cons_of_pos (by simp)]
      simp only [List.length_cons]
      have hz : countKey ((k2, v2) :: rest) k = 0 := by
        apply countKey_eq_zero
        intro p hp
        rcases List.mem_cons.mp hp with h3 | h3
        · subst h3
          intro e
          have e2 : k2 = k := e
          exact absurd (e2 ▸ h1) (lt_irrefl k)
        · have hlt : k2 < p.1 := hq p h3
          intro e
          have hk : k < p.1 := lt_trans h1 hlt
          rw [e] at hk
          exact lt_irrefl k hk
      unfold countKey at hz
      rw [hz]
    · by_cases h2 : k = k2
      · simp only [mapInsert, if_neg h1, if_pos h2]
        unfold countKey
        rw [List.filter_cons_of_pos (by simp)]
        simp only [List.length_cons]
        have hz : countKey rest k = 0 := by
          apply countKey_eq_zero
          intro p hp
          have hlt : k2 < p.1 := hq p hp
          intro e
          rw [e, h2] at hlt
          exact lt_irrefl k2 hlt
        unfold countKey at hz
        rw [hz]
      · simp only [mapInsert, if_neg h1, if_neg h2]
        unfold countKey
        rw [List.filter_cons_of_neg ?hneg]
        case hneg =>
          simp only [decide_eq_true_eq]
          exact fun e => h2 (by exact (e : k2 = k).symm)
        exact ih hrest

/-! ## Windows and buffer removal.
ZepEditor::RemoveBuffer and ZepEditor::FindBufferWindows are declared in
editor.h; their bodies are not among the staged sources and are modelled
from the spec: FindBufferWindows is a query over the editor's window
collection, and RemoveBuffer first detaches or redirects every Window
referencing the buffer before releasing it. -/

/-- A Window's identity-relevant state: its own id and the id of the one
buffer it views (a non-owning reference, looked up by id). -/
structure WindowModel where
  winId : Nat
  bufferId : Nat
deriving DecidableEq

/-- The editor's owned collections: buffer ids in insertion order and the
window collection across all tab windows. -/
structure EditorModel where
  buffers : List Nat
  windows : List WindowModel
deriving DecidableEq

/-- Modelled from the spec: FindBufferWindows is a query over the editor's
window collection returning the windows that reference the buffer. -/
def FindBufferWindows (e : EditorModel) (b : Nat) : List WindowModel :=
  e.windows.filter (fun w => decide (w.bufferId = b))

/-- Modelled from the spec: RemoveBuffer releases the buffer and first
detaches or redirects every Window referencing it — each such window is
redirected to a surviving buffer, or closed when none survives. -/
def RemoveBuffer (e : EditorModel) (b : Nat) : EditorModel :=
  let rem := e.buffers.filter (fun x => decide (x ≠ b))
  match rem with
  | [] => ⟨ [], e.windows.filter (fun w => decide (w.bufferId ≠ b))⟩
  | alt :: rest =>
    ⟨alt :: rest, e.windows.map (fun w => if w.bufferId = b then ⟨w.winId, alt⟩ else w)⟩

/-! ## The buffer: text content and its derived line index.
ZepBuffer is declared but its body is not among the staged sources; the
storage and mutation model below is modelled from the spec (section 4.1):
content is a character sequence, the line index is the ordered sequence
of line-start offsets, Insert and Delete fail with OutOfRange outside
bounds and otherwise rebuild the touched line index and mark the buffer
dirty. -/

/-- Offsets of the character positions that start a line strictly after
offset i in the given tail: one entry right after every newline. -/
def lineStartsAux : List Char → Nat → List Nat
  | [], _ => []
  | c :: cs, i =>
    if c = '\n' then (i + 1) :: lineStartsAux cs (i + 1)
    else lineStartsAux cs (i + 1)

/-- The derived line index of a content: offset 0 always starts the first
line, and a new line starts right after every newline character. -/
def lineStarts (t : List Char) : List Nat :=
  0 :: lineStartsAux t 0

/-- The error taxonomy of the spec (section 7). -/
inductive ZepError where
  | OutOfRange
  | InvalidMutation
  | RejectedInput
deriving DecidableEq

/-- Modelled from the spec: a buffer's observable state — content, derived
line index, the cursor position associated with the latest mutation
group, and the dirty flag. -/
structure BufferState where
  text : List Char
  lineIndex : List Nat
  cursor : Nat
  dirty : Bool
deriving DecidableEq

/-- The line index invariant: the stored index is the one derived from the
content (spec section 3: never observed stale after a mutation). -/
def lineIndexConsistent (b : BufferState) : Prop :=
  b.lineIndex = lineStarts b.text

instance (b : BufferState) : Decidable (lineIndexConsistent b) := by
  unfold lineIndexConsistent
  infer_instance

/-- What Insert returns: the buffer after the call and the failure, if any. -/
structure InsertResult where
  buffer : BufferState
  err : Option ZepError
deriving DecidableEq

/-- What Delete returns: the buffer after the call, the removed text
(captured for undo and register use), and the failure, if any. -/
structure DeleteResult where
  buffer : BufferState
  removed : List Char
  err : Option ZepError
deriving DecidableEq

/-- Modelled from the spec: Insert(offset, text) fails with OutOfRange when
offset > length and is then a no-op; on success it splices the text in at
the offset, rebuilds the line index for the new content and marks the
buffer dirty, leaving the cursor after the inserted text. -/
def bufInsert (b : BufferState) (offset : Nat) (s : List Char) : InsertResult :=
  if b.text.length < offset then ⟨b, some ZepError.OutOfRange⟩
  else
    let t2 := b.text.take offset ++ s ++ b.text.drop offset
    ⟨⟨t2, lineStarts t2, offset + s.length, true⟩, none⟩

/-- Modelled from the spec: Delete(start, stop) removes [start, stop),
failing with OutOfRange (as a no-op) when the range is inverted or
exceeds the buffer length; the removed text is captured and returned. -/
def bufDelete (b : BufferState) (start stop : Nat) : DeleteResult :=
  if stop < start ∨ b.text.length < stop then ⟨b, [], some ZepError.OutOfRange⟩
  else
    let t2 := b.text.take start ++ b.text.drop stop
    ⟨⟨t2, lineStarts t2, start, true⟩, (b.text.drop start).take (stop - start), none⟩

/-- LineCount(): the number of lines, one per line-start entry. -/
def lineCount (b : BufferState) : Nat := b.lineIndex.length

/-- How many line-start entries lie at or before offset o (the index
lookup an upper-bound search over the sorted line index performs). -/
def countLE (l : List Nat) (o : Nat) : Nat :=
  (l.filter (fun s => decide (s ≤ o))).length

/-- Modelled from the spec: OffsetToLineCol — OutOfRange past the buffer
end; otherwise the line is the last line-start at or before the offset
and the column is the distance into that line. -/
def offsetToLineCol (b : BufferState) (o : Nat) : Option (Nat × Nat) :=
  if b.text.length < o then none
  else
    let line := countLE b.lineIndex o - 1
    some (line, o - b.lineIndex.getD line 0)

/-- Modelled from the spec: LineColToOffset — OutOfRange for a line index
outside [0, LineCount()); otherwise the line's start plus the column. -/
def lineColToOffset (b : BufferState) (line col : Nat) : Option Nat :=
  if line < b.lineIndex.length then some (b.lineIndex.getD line 0 + col)
  else none

/-- Where the line's span of valid offsets ends: the next line's start, or
one past the buffer end for the last line. -/
def lineSpanEnd (b : BufferState) (line : Nat) : Nat :=
  b.lineIndex.getD (line + 1) (b.text.length + 1)

/-- A valid line/column pair: an existing line, and a column that stays
strictly inside the line's span of offsets. -/
def validLineCol (b : BufferState) (line col : Nat) : Prop :=
  line < b.lineIndex.length ∧ b.lineIndex.getD line 0 + col < lineSpanEnd b line

/-- An Insert or Delete request: the edit alphabet of sections 4.1 and 8. -/
inductive Edit where
  | insert (offset : Nat) (s : List Char)
  | delete (start stop : Nat)
deriving DecidableEq

/-- One edit applied to the buffer: a failing call is a no-op. -/
def applyEdit (b : BufferState) : Edit → BufferState
  | Edit.insert offset s => (bufInsert b offset s).buffer
  | Edit.delete start stop => (bufDelete b start stop).buffer

/-- A whole sequence of Insert/Delete calls. -/
def applyEdits (b : BufferState) (es : List Edit) : BufferState :=
  es.foldl applyEdit b

/-! ## Line index facts -/

theorem lineStartsAux_mem (t : List Char) :
    ∀ i x, x ∈ lineStartsAux t i → i < x ∧ x ≤ i + t.length := by
  induction t with
  | nil => intro i x hx; simp [lineStartsAux] at hx
  | cons c cs ih =>
    intro i x hx
    by_cases hc : c = '\n'
    · simp only [lineStartsAux, if_pos hc] at hx
      rcases List.mem_cons.mp hx with h3 | h3
      · subst h3
        exact ⟨Nat.lt_succ_self i, by simp [List.length_cons]⟩
      · obtain ⟨ha, hb⟩ := ih (i + 1) x h3
        exact ⟨lt_trans (Nat.lt_succ_self i) ha, by simp [List.length_cons] at *; omega⟩
    · simp only [lineStartsAux, if_neg hc] at hx
      obtain ⟨ha, hb⟩ := ih (i + 1) x hx
      exact ⟨lt_trans (Nat.lt_succ_self i) ha, by simp [List.length_cons] at *; omega⟩

theorem lineStartsAux_pairwise (t : List Char) :
    ∀ i, (lineStartsAux t i).Pairwise (· < ·) := by
  induction t with
  | nil => intro i; simp [lineStartsAux]
  | cons c cs ih =>
    intro i
    by_cases hc : c = '\n'
    · simp only [lineStartsAux, if_pos hc]
      rw [List.pairwise_cons]
      exact ⟨fun x hx => (lineStartsAux_mem cs (i + 1) x hx).1, ih (i + 1)⟩
    · simp only [lineStartsAux, if_neg hc]
      exact ih (i + 1)

theorem lineStarts_pairwise (t : List Char) : (lineStarts t).Pairwise (· < ·) := by
  unfold lineStarts
  rw [List.pairwise_cons]
  exact ⟨fun x hx => (lineStartsAux_mem t 0 x hx).1, lineStartsAux_pairwise t 0⟩

theorem lineStarts_mem_le (t : List Char) (x : Nat) (hx : x ∈ lineStarts t) :
    x ≤ t.length := by
  unfold lineStarts at hx
  rcases List.mem_cons.mp hx with h3 | h3
  · subst h3; exact Nat.zero_le _
  · simpa using (lineStartsAux_mem t 0 x h3).2

theorem lineStartsAux_length (t : List Char) :
    ∀ i, (lineStartsAux t i).length = t.count '\n' := by
  induction t with
  | nil => intro i; simp [lineStartsAux]
  | cons c cs ih =>
    intro i
    by_cases hc : c = '\n'
    · simp [lineStartsAux, hc, List.count_cons, ih]
    · simp [lineStartsAux, hc, List.count_cons, ih]

theorem lineStarts_length (t : List Char) :
    (lineStarts t).length = t.count '\n' + 1 := by
  simp [lineStarts, lineStartsAux_length]

/-! ## Upper-bound search over the sorted line index -/

theorem countLE_cons_of_le (s : Nat) (rest : List Nat) (o : Nat) (h : s ≤ o) :
    countLE (s :: rest) o = countLE rest o + 1 := by
  unfold countLE
  rw [List.filter_cons_of_pos (by simpa using h)]
  simp

theorem countLE_zero_of_forall (l : List Nat) (o : Nat)
    (h : ∀ x ∈ l, o < x) : countLE l o = 0 := by
  unfold countLE
  rw [List.length_eq_zero, List.filter_eq_nil_iff]
  intro x hx
  simpa using Nat.not_le.mpr (h x hx)

theorem countLE_le_length (l : List Nat) (o : Nat) : countLE l o ≤ l.length :=
  List.length_filter_le _ l

theorem getD_countLE_le (l : List Nat) (o : Nat) (hs : l.Pairwise (· < ·))
    (hc : 0 < countLE l o) : l.getD (countLE l o - 1) 0 ≤ o := by
  induction l with
  | nil => simp [countLE] at hc
  | cons s rest ih =>
    rw [List.pairwise_cons] at hs
    obtain ⟨hhead, hrest⟩ := hs
    by_cases hso : s ≤ o
    · rw [countLE_cons_of_le s rest o hso]
      rw [countLE_cons_of_le s rest o hso] at hc
      cases hcr : countLE rest o with
      | zero => simp [hcr]; exact hso
      | succ n =>
        have := ih hrest (by omega)
        rw [hcr] at this
        simpa [hcr] using this
    · have hz : countLE (s :: rest) o = 0 := by
        apply countLE_zero_of_forall
        intro x hx
        rcases List.mem_cons.mp hx with h3 | h3
        · subst h3; exact Nat.lt_of_not_le hso
        · exact lt_trans (Nat.lt_of_not_le hso) (hhead x h3)
      omega

theorem countLE_eq (l : List Nat) (o : Nat) :
    ∀ line, l.Pairwise (· < ·) → line < l.length → l.getD line 0 ≤ o →
      (∀ _ : line + 1 < l.length, o < l.getD (line + 1) 0) →
      countLE l o = line + 1 := by
  induction l with
  | nil => intro line _ hl; simp at hl
  | cons s rest ih =>
    intro line hs hl h1 h2
    rw [List.pairwise_cons] at hs
    obtain ⟨hhead, hrest⟩ := hs
    cases line with
    | zero =>
      have hso : s ≤ o := by simpa using h1
      rw [countLE_cons_of_le s rest o hso]
      have hz : countLE rest o = 0 := by
        cases rest with
        | nil => simp [countLE]
        | cons r rest2 =>
          have hor : o < r := by
            have := h2 (by simp [List.length_cons])
            simpa using this
          apply countLE_zero_of_forall
          intro x hx
          rcases List.mem_cons.mp hx with h3 | h3
          · subst h3; exact hor
          · have : r < x := by
              have hp := hrest
              rw [List.pairwise_cons] at hp
              exact hp.1 x h3
            exact lt_trans hor this
      omega
    | succ n =>
      have hln : n < rest.length := by simpa using hl
      have h1r : rest.getD n 0 ≤ o := by simpa using h1
      have hso : s ≤ o := by
        have hmem : rest.getD n 0 ∈ rest := by
          rw [List.getD_eq_getElem rest 0 hln]
          exact List.getElem_mem hln
        exact le_of_lt (lt_of_lt_of_le (hhead _ hmem) h1r)
      rw [countLE_cons_of_le s rest o hso]
      have := ih n hrest hln h1r (by
        intro hh
        have := h2 (by simpa using Nat.succ_lt_succ hh)
        simpa using this)
      omega

/-! ## Consistency of the line index under edits -/

theorem applyEdit_consistent (b : BufferState) (e : Edit)
    (h : lineIndexConsistent b) : lineIndexConsistent (applyEdit b e) := by
  cases e with
  | insert offset s =>
    unfold applyEdit bufInsert
    by_cases hg : b.text.length < offset
    · simpa [hg]
    · simp only [if_neg hg]
      unfold lineIndexConsistent
      rfl
  | delete start stop =>
    unfold applyEdit bufDelete
    by_cases hg : stop < start ∨ b.text.length < stop
    · simpa [hg]
    · simp only [if_neg hg]
      unfold lineIndexConsistent
      rfl

theorem applyEdits_consistent (es : List Edit) :
    ∀ b : BufferState, lineIndexConsistent b →
      lineIndexConsistent (applyEdits b es) := by
  induction es with
  | nil => intro b h; simpa [applyEdits]
  | cons e rest ih =>
    intro b h
    unfold applyEdits
    rw [List.foldl_cons]
    exact ih (applyEdit b e) (applyEdit_consistent b e h)

/-! ## The two coordinate conversions are mutual inverses -/

theorem offsetToLineCol_leftInverse (b : BufferState) (o : Nat)
    (hb : lineIndexConsistent b) (ho : o ≤ b.text.length) :
    (offsetToLineCol b o).bind (fun lc => lineColToOffset b lc.1 lc.2) = some o := by
  have hped : b.lineIndex.Pairwise (· < ·) := by
    rw [hb]; exact lineStarts_pairwise b.text
  have hne : b.lineIndex = 0 :: lineStartsAux b.text 0 := by
    rw [hb]; rfl
  have hcpos : 0 < countLE b.lineIndex o := by
    rw [hne, countLE_cons_of_le 0 _ o (Nat.zero_le o)]
    omega
  have hlt : countLE b.lineIndex o - 1 < b.lineIndex.length := by
    have := countLE_le_length b.lineIndex o
    omega
  have hstart := getD_countLE_le b.lineIndex o hped hcpos
  unfold offsetToLineCol lineColToOffset
  rw [if_neg (by omega)]
  simp only [Option.bind_some, Option.some_bind]
  rw [if_pos hlt]
  rw [Nat.add_sub_cancel' hstart]

theorem lineColToOffset_leftInverse (b : BufferState) (line col : Nat)
    (hb : lineIndexConsistent b) (hv : validLineCol b line col) :
    (lineColToOffset b line col).bind (fun o => offsetToLineCol b o) =
      some (line, col) := by
  obtain ⟨hl, hcol⟩ := hv
  have hped : b.lineIndex.Pairwise (· < ·) := by
    rw [hb]; exact lineStarts_pairwise b.text
  unfold lineSpanEnd at hcol
  have hball : ∀ x ∈ b.lineIndex, x ≤ b.text.length := by
    rw [hb]
    exact fun x hx => lineStarts_mem_le b.text x hx
  have hle : b.lineIndex.getD line 0 + col ≤ b.text.length := by
    by_cases hnext : line + 1 < b.lineIndex.length
    · have heq : b.lineIndex.getD (line + 1) (b.text.length + 1) =
          b.lineIndex.getD (line + 1) 0 := by
        rw [List.getD_eq_getElem _ _ hnext, List.getD_eq_getElem _ _ hnext]
      rw [heq] at hcol
      have hmem : b.lineIndex.getD (line + 1) 0 ∈ b.lineIndex := by
        rw [List.getD_eq_getElem _ _ hnext]
        exact List.getElem_mem hnext
      have := hball _ hmem
      omega
    · rw [List.getD_eq_default b.lineIndex (b.text.length + 1)
        (show b.lineIndex.length ≤ line + 1 by omega)] at hcol
      omega
  have hcount : countLE b.lineIndex (b.lineIndex.getD line 0 + col) = line + 1 := by
    apply countLE_eq b.lineIndex _ line hped hl (Nat.le_add_right _ _)
    intro hh
    have heq : b.lineIndex.getD (line + 1) (b.text.length + 1) =
        b.lineIndex.getD (line + 1) 0 := by
      rw [List.getD_eq_getElem _ _ hh, List.getD_eq_getElem _ _ hh]
    rw [heq] at hcol
    exact hcol
  unfold lineColToOffset offsetToLineCol
  rw [if_pos hl]
  simp only [Option.some_bind]
  rw [if_neg (by omega)]
  rw [hcount]
  simp

/-! ## Undo and redo.
Modelled from the spec (section 4.1): a mutation group is a single
successful Insert/Delete call; Undo/Redo reverse/reapply the most recent
group and restore the cursor associated with it, and are silent no-ops at
either end of the history.  The history is modelled by snapshot stacks:
each recorded group keeps the full pre-edit buffer state. -/

/-- A buffer together with its undo history. -/
structure UndoBuffer where
  cur : BufferState
  undoStack : List BufferState
  redoStack : List BufferState
deriving DecidableEq

/-- A freshly loaded buffer: no history at either end. -/
def freshUndo (b : BufferState) : UndoBuffer := ⟨b, [], []⟩

/-- One mutation group: a successful Insert/Delete records the pre-edit
state and empties the redo side; a failing call is a no-op and records
nothing. -/
def groupApply (u : UndoBuffer) (e : Edit) : UndoBuffer :=
  match e with
  | Edit.insert offset s =>
    match bufInsert u.cur offset s with
    | ⟨b2, none⟩ => ⟨b2, u.cur :: u.undoStack, []⟩
    | ⟨_, some _⟩ => u
  | Edit.delete start stop =>
    match bufDelete u.cur start stop with
    | ⟨b2, _, none⟩ => ⟨b2, u.cur :: u.undoStack, []⟩
    | ⟨_, _, some _⟩ => u

/-- A sequence of mutation groups. -/
def applyGroups (u : UndoBuffer) (es : List Edit) : UndoBuffer :=
  es.foldl groupApply u

/-- Undo(): restore the most recent recorded state, or do nothing when the
history is empty (not an error). -/
def undo (u : UndoBuffer) : UndoBuffer :=
  match u.undoStack with
  | [] => u
  | s :: rest => ⟨s, rest, u.cur :: u.redoStack⟩

/-- Redo(): reapply the most recently undone state, or do nothing when
there is nothing to redo (not an error). -/
def redo (u : UndoBuffer) : UndoBuffer :=
  match u.redoStack with
  | [] => u
  | s :: rest => ⟨s, u.cur :: u.undoStack, rest⟩

/-- Undo iterated n times. -/
def undoN : Nat → UndoBuffer → UndoBuffer
  | 0, u => u
  | n + 1, u => undoN n (undo u)

/-- Redo iterated n times. -/
def redoN : Nat → UndoBuffer → UndoBuffer
  | 0, u => u
  | n + 1, u => redoN n (redo u)

theorem undoN_run (stack : List BufferState) :
    ∀ (c : BufferState) (r : List BufferState),
      undoN stack.length ⟨c, stack, r⟩ =
        ⟨stack.getLastD c, [], ((c :: stack).dropLast).reverse ++ r⟩ := by
  induction stack with
  | nil => intro c r; simp [undoN, List.getLastD]
  | cons s ss ih =>
    intro c r
    have hstep : undoN (ss.length + 1) ⟨c, s :: ss, r⟩ =
        undoN ss.length ⟨s, ss, c :: r⟩ := by
      simp [undoN, undo]
    rw [List.length_cons, hstep, ih s (c :: r)]
    rw [List.getLastD_cons c s ss]
    have hdl : (c :: s :: ss).dropLast = c :: (s :: ss).dropLast := by
      simp [List.dropLast_cons₂]
    rw [hdl, List.reverse_cons, List.append_assoc]
    simp

theorem redoN_run (lst : List BufferState) :
    ∀ (c : BufferState) (k r : List BufferState),
      redoN lst.length ⟨c, k, lst ++ r⟩ =
        ⟨lst.getLastD c, ((c :: lst).dropLast).reverse ++ k, r⟩ := by
  induction lst with
  | nil => intro c k r; simp [redoN, List.getLastD]
  | cons x xs ih =>
    intro c k r
    have hstep : redoN (xs.length + 1) ⟨c, k, (x :: xs) ++ r⟩ =
        redoN xs.length ⟨x, c :: k, xs ++ r⟩ := by
      simp [redoN, redo]
    rw [List.length_cons, hstep, ih x (c :: k) r]
    rw [List.getLastD_cons c x xs]
    have hdl : (c :: x :: xs).dropLast = c :: (x :: xs).dropLast := by
      simp [List.dropLast_cons₂]
    rw [hdl, List.reverse_cons, List.append_assoc]
    simp

theorem cons_reverse_decomp (c : BufferState) (stack : List BufferState) :
    (c :: stack).reverse = stack.getLastD c :: ((c :: stack).dropLast).reverse := by
  induction stack generalizing c with
  | nil => simp [List.getLastD]
  | cons s ss ih =>
    rw [List.getLastD_cons c s ss]
    have hdl : (c :: s :: ss).dropLast = c :: (s :: ss).dropLast := by
      simp [List.dropLast_cons₂]
    rw [hdl]
    have : (c :: s :: ss).reverse = (s :: ss).reverse ++ [c] := by
      simp
    rw [this, ih s]
    simp

theorem redoN_undoN_roundTrip (u : UndoBuffer) :
    redoN u.undoStack.length (undoN u.undoStack.length u) = u := by
  obtain ⟨c, stack, r⟩ := u
  simp only
  rw [undoN_run stack c r]
  have hlen : stack.length = (((c :: stack).dropLast).reverse).length := by
    simp [List.length_dropLast]
  rw [hlen, redoN_run (((c :: stack).dropLast).reverse) (stack.getLastD c) [] r]
  have hrev : stack.getLastD c :: ((c :: stack).dropLast).reverse =
      (c :: stack).reverse := (cons_reverse_decomp c stack).symm
  have hcur : (((c :: stack).dropLast).reverse).getLastD (stack.getLastD c) = c := by
    have h1 : ∀ d : BufferState,
        ((c :: stack).reverse).getLastD d = c := by
      intro d
      have : (c :: stack).reverse = stack.reverse ++ [c] := by simp
      rw [this]
      exact List.getLastD_concat d c stack.reverse
    have h2 := List.getLastD_cons (stack.getLastD c) (stack.getLastD c)
        (((c :: stack).dropLast).reverse)
    calc (((c :: stack).dropLast).reverse).getLastD (stack.getLastD c)
        = (stack.getLastD c :: ((c :: stack).dropLast).reverse).getLastD
            (stack.getLastD c) := (h2).symm
      _ = ((c :: stack).reverse).getLastD (stack.getLastD c) := by rw [hrev]
      _ = c := h1 _
  have hstk : ((stack.getLastD c :: ((c :: stack).dropLast).reverse).dropLast).reverse
      = stack := by
    rw [hrev]
    have : (c :: stack).reverse = stack.reverse ++ [c] := by simp
    rw [this, List.dropLast_concat, List.reverse_reverse]
  rw [hcur]
  rw [List.append_nil, hstk]

theorem applyGroups_getLastD (es : List Edit) :
    ∀ u : UndoBuffer,
      (applyGroups u es).undoStack.getLastD (applyGroups u es).cur =
        u.undoStack.getLastD u.cur := by
  induction es with
  | nil => intro u; simp [applyGroups]
  | cons e rest ih =>
    intro u
    unfold applyGroups
    rw [List.foldl_cons]
    have hstep : (groupApply u e).undoStack.getLastD (groupApply u e).cur =
        u.undoStack.getLastD u.cur := by
      cases e with
      | insert offset s =>
        unfold groupApply bufInsert
        by_cases hg : u.cur.text.length < offset
        · simp [hg]
        · simp only [if_neg hg]
          rw [List.getLastD_cons]
      | delete start stop =>
        unfold groupApply bufDelete
        by_cases hg : stop < start ∨ u.cur.text.length < stop
        · simp [hg]
        · simp only [if_neg hg]
          rw [List.getLastD_cons]
    calc ((rest.foldl groupApply (groupApply u e)).undoStack).getLastD
          (rest.foldl groupApply (groupApply u e)).cur
        = (groupApply u e).undoStack.getLastD (groupApply u e).cur := ih (groupApply u e)
      _ = u.undoStack.getLastD u.cur := hstep

/-! ## The modal command grammar.
Modelled from the spec (section 4.2): a command is
[count] [register-prefix] [operator] motion (counts compose
multiplicatively, a doubled operator key acts on the whole current line);
a motion with no operator only moves the cursor; malformed sequences are
absorbed with no mutation. -/

/-- The motions of the modelled grammar. -/
inductive Motion where
  | left
  | right
  | wordForward
  | lineStart
  | lineEnd
  | lineWhole
deriving DecidableEq

/-- The operators of the modelled grammar (both remove the spanned range;
change additionally enters insert mode, which does not affect content). -/
inductive Operator where
  | delete
  | change
deriving DecidableEq

/-- A fully accumulated modal command. -/
structure ModeCommand where
  count : Nat
  regTarget : Option Char
  op : Option Operator
  motion : Motion
deriving DecidableEq

/-- The double-quote character that introduces a register prefix. -/
def dquote : Char := Char.ofNat 34

/-- A digit 1..9 can start a count (0 alone is the line-start motion). -/
def isCountDigit (c : Char) : Bool := decide ('1' ≤ c) && decide (c ≤ '9')

/-- Any digit can continue a count. -/
def isDigitCh (c : Char) : Bool := decide ('0' ≤ c) && decide (c ≤ '9')

/-- The numeric value of a digit character. -/
def digitVal (c : Char) : Nat := c.toNat - 48

/-- Consume further digits of a count already started. -/
def parseDigits : List Char → Nat → Nat × List Char
  | [], acc => (acc, [])
  | c :: rest, acc =>
    if isDigitCh c then parseDigits rest (acc * 10 + digitVal c)
    else (acc, c :: rest)

/-- Consume an optional count prefix; an absent count means 1. -/
def parseCount (ks : List Char) : Nat × List Char :=
  match ks with
  | c :: rest => if isCountDigit c then parseDigits rest (digitVal c) else (1, ks)
  | [] => (1, [])

/-- Consume an optional register prefix (a double quote and the register
name). -/
def parseRegPrefix (ks : List Char) : Option Char × List Char :=
  match ks with
  | c :: c2 :: rest => if c = dquote then (some c2, rest) else (none, ks)
  | _ => (none, ks)

/-- The operator keys. -/
def charOperator (c : Char) : Option Operator :=
  if c = 'd' then some Operator.delete
  else if c = 'c' then some Operator.change
  else none

/-- The motion keys. -/
def charMotion (c : Char) : Option Motion :=
  if c = 'h' then some Motion.left
  else if c = 'l' then some Motion.right
  else if c = 'w' then some Motion.wordForward
  else if c = '0' then some Motion.lineStart
  else if c = '$' then some Motion.lineEnd
  else none

/-- Interpret a whole key sequence as one modal command:
[count] [register] [operator] [count] motion, the two counts composing
multiplicatively, a doubled operator key standing for the whole current
line.  Sequences outside the grammar are rejected (none). -/
def parseCommand (ks : List Char) : Option ModeCommand :=
  let n1 := (parseCount ks).1
  let ks1 := (parseCount ks).2
  let rg := (parseRegPrefix ks1).1
  let ks2 := (parseRegPrefix ks1).2
  match ks2 with
  | [] => none
  | c :: rest =>
    match charOperator c with
    | some oper =>
      let n2 := (parseCount rest).1
      let ks3 := (parseCount rest).2
      match ks3 with
      | [m] =>
        if m = c then some ⟨n1 * n2, rg, some oper, Motion.lineWhole⟩
        else
          match charMotion m with
          | some mo => some ⟨n1 * n2, rg, some oper, mo⟩
          | none => none
      | _ => none
    | none =>
      match charMotion c with
      | some mo => if rest = [] then some ⟨n1, rg, none, mo⟩ else none
      | none => none

/-- The offset that starts the line containing the cursor. -/
def startOfLine (t : List Char) (cur : Nat) : Nat :=
  (lineStarts t).getD (countLE (lineStarts t) cur - 1) 0

/-- One past the last offset of the line containing the cursor: the next
line's start, or the buffer end on the last line. -/
def nextLineStart (t : List Char) (cur : Nat) : Nat :=
  (lineStarts t).getD (countLE (lineStarts t) cur) t.length

/-- The last character offset of the current line (the newline position,
or the buffer end). -/
def endOfLine (t : List Char) (cur : Nat) : Nat :=
  nextLineStart t cur - 1

/-- Where a single step of the motion lands the cursor. -/
def motionTarget (t : List Char) (cur : Nat) : Motion → Nat
  | Motion.left => cur - 1
  | Motion.right => min (cur + 1) t.length
  | Motion.wordForward =>
    let rest := t.drop cur
    let a := (rest.takeWhile (fun c => !c.isWhitespace)).length
    let b := ((rest.drop a).takeWhile (fun c => c.isWhitespace)).length
    min (cur + a + b) t.length
  | Motion.lineStart => startOfLine t cur
  | Motion.lineEnd => endOfLine t cur
  | Motion.lineWhole => cur

/-- The motion iterated count times. -/
def iterTarget (t : List Char) (m : Motion) : Nat → Nat → Nat
  | 0, cur => cur
  | n + 1, cur => iterTarget t m n (motionTarget t cur m)

/-- The byte range [lo, hi) a counted motion spans from the cursor; the
whole-line pseudo-motion of a doubled operator spans the current line
including its newline. -/
def motionSpan (t : List Char) (cur count : Nat) (m : Motion) : Nat × Nat :=
  match m with
  | Motion.lineWhole => (startOfLine t (min cur t.length), nextLineStart t (min cur t.length))
  | _ =>
    let c0 := min cur t.length
    let tgt := iterTarget t m count c0
    (min c0 tgt, max c0 tgt)

/-- Execute one parsed command against content and cursor: with no
operator only the cursor moves; with an operator the spanned range is
removed and the cursor lands at the span start. -/
def execCommand (t : List Char) (cur : Nat) (cmd : ModeCommand) : List Char × Nat :=
  match cmd.op with
  | none => (t, min (iterTarget t cmd.motion cmd.count (min cur t.length)) t.length)
  | some _ =>
    let sp := motionSpan t cur cmd.count cmd.motion
    (t.take sp.1 ++ t.drop sp.2, sp.1)

/-- Feed a key sequence to the mode: commands inside the grammar execute,
malformed sequences are absorbed with no mutation (RejectedInput). -/
def interpretKeys (t : List Char) (cur : Nat) (ks : List Char) : List Char × Nat :=
  match parseCommand ks with
  | none => (t, cur)
  | some cmd => execCommand t cur cmd

/-! ## Characterisations of RemoveBuffer's window collection -/

theorem removeBuffer_windows_nil (e : EditorModel) (b : Nat)
    (h : e.buffers.filter (fun x => decide (x ≠ b)) = []) :
    (RemoveBuffer e b).windows = e.windows.filter (fun w => decide (w.bufferId ≠ b)) := by
  unfold RemoveBuffer
  rw [h]

theorem removeBuffer_windows_cons (e : EditorModel) (b alt : Nat) (rest : List Nat)
    (h : e.buffers.filter (fun x => decide (x ≠ b)) = alt :: rest) :
    (RemoveBuffer e b).windows =
      e.windows.map (fun w => if w.bufferId = b then ⟨w.winId, alt⟩ else w) := by
  unfold RemoveBuffer
  rw [h]

theorem removeBuffer_windows_ne (e : EditorModel) (b : Nat) :
    ∀ w ∈ (RemoveBuffer e b).windows, w.bufferId ≠ b := by
  intro w hw
  cases hrem : e.buffers.filter (fun x => decide (x ≠ b)) with
  | nil =>
    rw [removeBuffer_windows_nil e b hrem] at hw
    simpa using (List.mem_filter.mp hw).2
  | cons alt rest =>
    rw [removeBuffer_windows_cons e b alt rest hrem] at hw
    have halt : alt ≠ b := by
      have hm : alt ∈ e.buffers.filter (fun x => decide (x ≠ b)) := by
        rw [hrem]
        exact List.mem_cons_self alt rest
      simpa using (List.mem_filter.mp hm).2
    obtain ⟨w0, hw0, hmap⟩ := List.mem_map.mp hw
    by_cases hwb : w0.bufferId = b
    · rw [if_pos hwb] at hmap
      rw [← hmap]
      exact halt
    · rw [if_neg hwb] at hmap
      rw [← hmap]
      exact hwb

/-! ## The claims -/

/-- Claim C1, counterexample: registering component pointers 2 then 1 makes
Broadcast visit 1 before 2 — the std::set's sorted iteration order, not the
registration order [2, 1]. -/
theorem broadcast_not_registration_order :
    broadcastOrder (subscribersOf [2, 1]) ≠ [2, 1] := by decide

/-- Claim C1 (amended): Broadcast notifies the registered subscriber set in
strictly ascending pointer-key order — the iteration order of the std::set
m_notifyClients — and the notified set is exactly the set of registered
components; this coincides with registration order only when components
happen to be registered in ascending pointer order. -/
theorem broadcast_order_sorted_keys (regs : List ComponentPtr) :
    (broadcastOrder (subscribersOf regs)).Pairwise (· < ·) ∧
    (∀ p, p ∈ broadcastOrder (subscribersOf regs) ↔ p ∈ regs) := by
  have h := subscribersOf_appendStep regs [] List.Pairwise.nil
  unfold broadcastOrder subscribersOf
  refine ⟨h.1, fun p => ?_⟩
  rw [h.2 p]
  simp

/-- Claim C2: for every buffer whose line index is consistent with its
content, every offset within the buffer and every text, Insert(offset,
text) followed by Delete of exactly the inserted range restores the
content and the line-start index to their original values (and the Delete
succeeds). -/
theorem insert_delete_roundTrip (b : BufferState) (offset : Nat) (s : List Char)
    (h1 : offset ≤ b.text.length) (h2 : lineIndexConsistent b) :
    (bufDelete (bufInsert b offset s).buffer offset (offset + s.length)).buffer.text
        = b.text ∧
    (bufDelete (bufInsert b offset s).buffer offset (offset + s.length)).buffer.lineIndex
        = b.lineIndex ∧
    (bufDelete (bufInsert b offset s).buffer offset (offset + s.length)).err = none := by
  have hA : (b.text.take offset).length = offset := by
    rw [List.length_take]
    omega
  have hAS : (b.text.take offset ++ s).length = offset + s.length := by
    rw [List.length_append, hA]
  have hbuf : (bufInsert b offset s).buffer =
      ⟨b.text.take offset ++ s ++ b.text.drop offset,
        lineStarts (b.text.take offset ++ s ++ b.text.drop offset),
        offset + s.length, true⟩ := by
    unfold bufInsert
    rw [if_neg (show ¬ b.text.length < offset by omega)]
  rw [hbuf]
  have hguard : ¬ (offset + s.length < offset ∨
      (b.text.take offset ++ s ++ b.text.drop offset).length < offset + s.length) := by
    rw [List.length_append, List.length_append, hA, List.length_drop]
    omega
  have htake : (b.text.take offset ++ s ++ b.text.drop offset).take offset
      = b.text.take offset := by
    rw [List.append_assoc]
    exact List.take_left' hA
  have hdrop : (b.text.take offset ++ s ++ b.text.drop offset).drop (offset + s.length)
      = b.text.drop offset := by
    exact List.drop_left' hAS
  unfold bufDelete
  rw [if_neg hguard]
  simp only
  rw [htake, hdrop, List.take_append_drop]
  exact ⟨rfl, h2.symm, trivial⟩

/-- A concrete two-line buffer used by the round-trip witness. -/
def bufC2 : BufferState :=
  ⟨ ['a', '\n', 'b'], lineStarts ['a', '\n', 'b'], 0, false⟩

/-- Claim C2, witness: the round trip evaluated on the buffer "a\nb",
inserting "x\n" at offset 1 and deleting [1, 3) again. -/
theorem insert_delete_roundTrip_witness :
    1 ≤ bufC2.text.length ∧ lineIndexConsistent bufC2 ∧
    ((bufDelete (bufInsert bufC2 1 ['x', '\n']).buffer 1
        (1 + (['x', '\n'] : List Char).length)).buffer.text = bufC2.text ∧
     (bufDelete (bufInsert bufC2 1 ['x', '\n']).buffer 1
        (1 + (['x', '\n'] : List Char).length)).buffer.lineIndex = bufC2.lineIndex ∧
     (bufDelete (bufInsert bufC2 1 ['x', '\n']).buffer 1
        (1 + (['x', '\n'] : List Char).length)).err = none) :=
  ⟨by decide, by decide,
    insert_delete_roundTrip bufC2 1 ['x', '\n'] (by decide) (by decide)⟩

/-- Claim C3: after any sequence of Insert/Delete calls on a consistent
buffer, LineCount() equals the number of line separators in the content
plus 1, and OffsetToLineCol/LineColToOffset are mutual inverses over
valid inputs. -/
theorem lineIndex_and_conversions (b0 : BufferState) (es : List Edit)
    (h : lineIndexConsistent b0) :
    lineCount (applyEdits b0 es) = (applyEdits b0 es).text.count '\n' + 1 ∧
    (∀ o, o ≤ (applyEdits b0 es).text.length →
      (offsetToLineCol (applyEdits b0 es) o).bind
        (fun lc => lineColToOffset (applyEdits b0 es) lc.1 lc.2) = some o) ∧
    (∀ line col, validLineCol (applyEdits b0 es) line col →
      (lineColToOffset (applyEdits b0 es) line col).bind
        (fun o => offsetToLineCol (applyEdits b0 es) o) = some (line, col)) := by
  have hc := applyEdits_consistent es b0 h
  refine ⟨?_, fun o ho => offsetToLineCol_leftInverse _ o hc ho,
    fun line col hv => lineColToOffset_leftInverse _ line col hc hv⟩
  unfold lineCount
  rw [hc, lineStarts_length]

/-- The three-line buffer "a\nb\nc" of the spec's example. -/
def bufC3 : BufferState :=
  ⟨ ['a', '\n', 'b', '\n', 'c'], lineStarts ['a', '\n', 'b', '\n', 'c'], 0, false⟩

/-- The edit sequence used by the line-index witness: the spec's example
Insert(5, "d") at the end of the buffer, then a Delete of [0, 2). -/
def editsC3 : List Edit := [Edit.insert 5 ['d'], Edit.delete 0 2]

/-- Claim C3, witness: the line-count identity and both inversions hold on
the buffer "a\nb\nc" after Insert(5, "d") and Delete(0, 2). -/
theorem lineIndex_and_conversions_witness :
    lineIndexConsistent bufC3 ∧
    (lineCount (applyEdits bufC3 editsC3) =
        (applyEdits bufC3 editsC3).text.count '\n' + 1 ∧
     (∀ o, o ≤ (applyEdits bufC3 editsC3).text.length →
       (offsetToLineCol (applyEdits bufC3 editsC3) o).bind
         (fun lc => lineColToOffset (applyEdits bufC3 editsC3) lc.1 lc.2) = some o) ∧
     (∀ line col, validLineCol (applyEdits bufC3 editsC3) line col →
       (lineColToOffset (applyEdits bufC3 editsC3) line col).bind
         (fun o => offsetToLineCol (applyEdits bufC3 editsC3) o) = some (line, col))) :=
  ⟨by decide, lineIndex_and_conversions bufC3 editsC3 (by decide)⟩

/-- Claim C4: Insert fails with OutOfRange exactly when the offset exceeds
the buffer length, and on that failure the whole buffer state — content,
line index, cursor and dirty flag — is unchanged. -/
theorem insert_outOfRange_noOp (b : BufferState) (offset : Nat) (s : List Char) :
    ((bufInsert b offset s).err = some ZepError.OutOfRange ↔ b.text.length < offset) ∧
    (b.text.length < offset → (bufInsert b offset s).buffer = b) := by
  unfold bufInsert
  by_cases hg : b.text.length < offset
  · simp [hg]
  · simp [hg]

/-- Claim C5: Undo at empty history and Redo with nothing to redo are
silent no-ops; and after any sequence of mutation groups on a fresh
buffer, Undo once per recorded group restores the exact pre-edit buffer
state (content, line index and cursor), after which Redo once per group
restores the final state, history included. -/
theorem undo_redo_history (b0 c : BufferState) (es : List Edit)
    (st rs : List BufferState) :
    undo ⟨c, [], rs⟩ = ⟨c, [], rs⟩ ∧
    redo ⟨c, st, []⟩ = ⟨c, st, []⟩ ∧
    (undoN (applyGroups (freshUndo b0) es).undoStack.length
        (applyGroups (freshUndo b0) es)).cur = b0 ∧
    redoN (applyGroups (freshUndo b0) es).undoStack.length
        (undoN (applyGroups (freshUndo b0) es).undoStack.length
          (applyGroups (freshUndo b0) es)) = applyGroups (freshUndo b0) es := by
  refine ⟨rfl, rfl, ?_, redoN_undoN_roundTrip _⟩
  have hG : (applyGroups (freshUndo b0) es).undoStack.getLastD
      (applyGroups (freshUndo b0) es).cur = b0 := by
    have h := applyGroups_getLastD es (freshUndo b0)
    simpa [freshUndo, List.getLastD] using h
  generalize hu : applyGroups (freshUndo b0) es = u at hG ⊢
  obtain ⟨cu, stk, ru⟩ := u
  rw [undoN_run stk cu ru]
  simpa using hG

/-- Claim C6: after RemoveBuffer, no window references the removed buffer
and FindBufferWindows for it returns the empty collection. -/
theorem removeBuffer_leaves_no_reference (e : EditorModel) (b : Nat) :
    ((RemoveBuffer e b).windows.all (fun w => decide (w.bufferId ≠ b))) = true ∧
    FindBufferWindows (RemoveBuffer e b) b = [] := by
  constructor
  · rw [List.all_eq_true]
    intro w hw
    simpa using removeBuffer_windows_ne e b w hw
  · unfold FindBufferWindows
    rw [List.filter_eq_nil_iff]
    intro w hw
    simpa using removeBuffer_windows_ne e b w hw

/-- Claim C7: a key sequence the mode interprets as a command with no
operator never mutates the content (only the cursor moves); a key
sequence interpreted as operator-plus-motion leaves exactly the content
outside the motion's span — its prefix before the span and its suffix
from the span's end — and removes the spanned range. -/
theorem mode_motion_frame (ks : List Char) (cmd : ModeCommand) (t : List Char)
    (cur : Nat) (h : parseCommand ks = some cmd) :
    (interpretKeys t cur ks).1 =
      match cmd.op with
      | none => t
      | some _ =>
        t.take (motionSpan t cur cmd.count cmd.motion).1 ++
          t.drop (motionSpan t cur cmd.count cmd.motion).2 := by
  unfold interpretKeys
  rw [h]
  unfold execCommand
  cases hop : cmd.op with
  | none => simp [hop]
  | some oper => simp [hop]

/-- The parsed command behind the key sequence d w. -/
def cmdC7 : ModeCommand := ⟨1, none, some Operator.delete, Motion.wordForward⟩

/-- The content "hello world" of the spec's delete-word example. -/
def textC7 : List Char := ['h', 'e', 'l', 'l', 'o', ' ', 'w', 'o', 'r', 'l', 'd']

/-- Claim C7, witness: the spec's example — d w on "hello world" with the
cursor at 0 parses to a delete-plus-word command and mutates exactly the
spanned range. -/
theorem mode_motion_frame_witness :
    parseCommand ['d', 'w'] = some cmdC7 ∧
    (interpretKeys textC7 0 ['d', 'w']).1 =
      match cmdC7.op with
      | none => textC7
      | some _ =>
        textC7.take (motionSpan textC7 0 cmdC7.count cmdC7.motion).1 ++
          textC7.drop (motionSpan textC7 0 cmdC7.count cmdC7.motion).2 :=
  ⟨by decide, mode_motion_frame ['d', 'w'] cmdC7 textC7 0 (by decide)⟩

/-- Claim C8: the register store keeps at most one Register per key, and
of two successive SetRegister calls on one key a GetRegister returns
exactly the later value — last-write-wins, no history. -/
theorem setRegister_lastWriteWins (m : tRegisters) (k : String) (v1 v2 : Register)
    (h : regKeysSorted m) :
    GetRegister (SetRegister (SetRegister m k v1) k v2) k = v2 ∧
    countKey (SetRegister (SetRegister m k v1) k v2) k = 1 := by
  constructor
  · unfold GetRegister SetRegister
    rw [mapFind_mapInsert]
    rfl
  · unfold SetRegister
    exact countKey_mapInsert k v2 _ (mapInsert_sorted k v1 m h)

/-- The first value written in the last-write-wins witness. -/
def regV1 : Register := ⟨ "hello", false⟩

/-- The second, winning value of the last-write-wins witness. -/
def regV2 : Register := ⟨ "world", true⟩

/-- Claim C8, witness: on the empty store, two writes to the key a leave
one entry holding the later value. -/
theorem setRegister_lastWriteWins_witness :
    regKeysSorted [] ∧
    (GetRegister (SetRegister (SetRegister [] "a" regV1) "a" regV2) "a" = regV2 ∧
     countKey (SetRegister (SetRegister [] "a" regV1) "a" regV2) "a" = 1) :=
  ⟨List.Pairwise.nil, setRegister_lastWriteWins [] "a" regV1 regV2 List.Pairwise.nil⟩

/-- Claim C9: a default-constructed Register has an empty text payload and
lineWise false, and each constructor that is not given an explicit
line-wise argument sets lineWise to false. -/
theorem register_ctor_defaults (s : String) :
    Register.mkDefault.text = "" ∧ Register.mkDefault.lineWise = false ∧
    (Register.ofCStringDefault s).lineWise = false ∧
    (Register.ofUtf8Default s).lineWise = false ∧
    (Register.ofStringDefault s).lineWise = false :=
  ⟨rfl, rfl, rfl, rfl, rfl⟩

/-- Claim C10: registering a component pointer twice leaves the subscriber
set with a single entry — the pointer is notified exactly once per
Broadcast — and after UnRegisterCallback it is not notified by a
subsequent Broadcast. -/
theorem registerCallback_idempotent (regs : List ComponentPtr) (p : ComponentPtr) :
    RegisterCallback (RegisterCallback (subscribersOf regs) p) p =
      RegisterCallback (subscribersOf regs) p ∧
    (broadcastOrder (RegisterCallback (RegisterCallback (subscribersOf regs) p) p)).count p
      = 1 ∧
    p ∉ broadcastOrder (UnRegisterCallback (RegisterCallback (subscribersOf regs) p) p) := by
  have hpair : (subscribersOf regs).Pairwise (· < ·) :=
    (subscribersOf_appendStep regs [] List.Pairwise.nil).1
  have hidem : RegisterCallback (RegisterCallback (subscribersOf regs) p) p =
      RegisterCallback (subscribersOf regs) p := insertSorted_idem p _
  refine ⟨hidem, ?_, ?_⟩
  · rw [hidem]
    have hp2 : (RegisterCallback (subscribersOf regs) p).Pairwise (· < ·) :=
      insertSorted_pairwise p _ hpair
    have hnd : (RegisterCallback (subscribersOf regs) p).Nodup :=
      hp2.imp (fun h => Nat.ne_of_lt h)
    have hmem : p ∈ RegisterCallback (subscribersOf regs) p :=
      (mem_insertSorted p p _).mpr (Or.inl rfl)
    unfold broadcastOrder
    exact List.count_eq_one_of_mem hnd hmem
  · unfold broadcastOrder UnRegisterCallback
    intro hmem
    have hne := (List.mem_filter.mp hmem).2
    simp at hne
